import Mathlib

/-!
Verification of the learning Kalman-Bucy filter (`src/lib/lkf_smoothed.py`).

The filter state, its augmented packed representation, the drift vector
field `f`, and the per-tick observation operation `LKF.__call__` are
embedded below over `ℚ` (numpy float arrays become rational matrices;
`float('inf')` parameters become `Option ℚ` with `none` standing for the
infinite value).  The generic integrator (`lib/integrator.py`) is not part
of the sources and is modelled from the specification as an explicit-Euler
stepper with a configurable number of sub-steps.
-/

namespace LKF

open Matrix

abbrev Vec (n : ℕ) := Fin n → ℚ
abbrev Mat (n : ℕ) := Matrix (Fin n) (Fin n) ℚ

/-- The flattened augmented state (`iv = np.concatenate((x0, P0, eta0),
axis=1).ravel()`): a vector of length `n * (1 + 2n)`. -/
abbrev FlatState (n : ℕ) := Fin (n * (1 + 2 * n)) → ℚ

/-- Row-major flattening of an `n × m` matrix, as numpy's `ndarray.ravel()`:
entry `(i, j)` lands at flat index `i * m + j`. -/
def ravel {n m : ℕ} (A : Matrix (Fin n) (Fin m) ℚ) : Fin (n * m) → ℚ :=
  fun k =>
    have hm : 0 < m := by
      rcases Nat.eq_zero_or_pos m with h | h
      · exact absurd k.isLt (by simp [h])
      · exact h
    A ⟨(k : ℕ) / m, by
        have := k.isLt
        exact (Nat.div_lt_iff_lt_mul hm).mpr this⟩
      ⟨(k : ℕ) % m, Nat.mod_lt _ hm⟩

/-- Row-major reshaping of a flat vector into an `n × m` matrix, as numpy's
`ndarray.reshape((n, m))`. -/
def reshape {n m : ℕ} (v : Fin (n * m) → ℚ) : Matrix (Fin n) (Fin m) ℚ :=
  fun i j =>
    v ⟨(i : ℕ) * m + (j : ℕ), by
      have hij : (i : ℕ) * m + (j : ℕ) < ((i : ℕ) + 1) * m := by
        have := j.isLt
        calc (i : ℕ) * m + (j : ℕ) < (i : ℕ) * m + m := by omega
        _ = ((i : ℕ) + 1) * m := by ring
      exact lt_of_lt_of_le hij (Nat.mul_le_mul_right m i.isLt)⟩

/-- `v[:, np.newaxis]`: a vector viewed as a one-column matrix. -/
def colVec {n : ℕ} (v : Vec n) : Matrix (Fin n) (Fin 1) ℚ :=
  fun i _ => v i

/-- `np.concatenate((x, P, eta), axis=1)`: the `n × (1 + 2n)` augmented
state matrix, columns `[0]` from `x`, `[1, 1+n)` from `P`, `[1+n, 1+2n)`
from `eta`. -/
def packMat {n : ℕ} (x : Matrix (Fin n) (Fin 1) ℚ) (P η : Mat n) :
    Matrix (Fin n) (Fin (1 + 2 * n)) ℚ :=
  fun i j =>
    if h : (j : ℕ) < 1 then x i ⟨(j : ℕ), h⟩
    else if h2 : (j : ℕ) < 1 + n then P i ⟨(j : ℕ) - 1, by omega⟩
    else η i ⟨(j : ℕ) - 1 - n, by have := j.isLt; omega⟩

/-- The packed flat augmented vector (`np.concatenate(..., axis=1).ravel()`). -/
def packState {n : ℕ} (x : Matrix (Fin n) (Fin 1) ℚ) (P η : Mat n) :
    FlatState n :=
  ravel (packMat x P η)

/-- `LKF.load_vars`: reshape the flat state to `(n, 1 + 2n)` and slice
`state[:, :1]`, `state[:, 1:1+ndim]`, `state[:, 1+ndim:]`. -/
def load_vars {n : ℕ} (y : FlatState n) :
    Matrix (Fin n) (Fin 1) ℚ × Mat n × Mat n :=
  let M := reshape (n := n) (m := 1 + 2 * n) y
  (fun i _ => M i ⟨0, by omega⟩,
   fun i j => M i ⟨1 + (j : ℕ), by have := j.isLt; omega⟩,
   fun i j => M i ⟨1 + n + (j : ℕ), by have := j.isLt; omega⟩)

/-- Matrix inverse via the adjugate, modelling `np.linalg.inv` on a
nonsingular matrix (`A⁻¹ = det(A)⁻¹ · adj(A)`; for singular `A` numpy
raises, while this total model returns the zero matrix). -/
def minv {n : ℕ} (A : Mat n) : Mat n := (A.det)⁻¹ • A.adjugate

/-- `np.linalg.solve(P.T @ P + eps * I, P.T)`: the ridge-regularized
least-squares inverse of `P`. -/
def pInvOf {n : ℕ} (ε : ℚ) (P : Mat n) : Mat n :=
  minv (Pᵀ * P + ε • (1 : Mat n)) * Pᵀ

/-- The filter's immutable configuration (constructor arguments of
`LKF.__init__`; `F` is kept separately since it is a callable).  `tau` and
`eta_bnd` default to `float('inf')` in the source: `none` models the
infinite value, `some v` a finite one. -/
structure Config (n : ℕ) where
  H : Mat n
  Q : Mat n
  R : Mat n
  dt : ℚ
  tau : Option ℚ
  eta_bnd : Option ℚ
  eps : ℚ
  gamma : ℚ

/-- Python list access `l[-k]` (most recent entry is `l[-1]`), as used on
`err_hist` and `P_hist`; total with a default where Python would raise. -/
def histAt {α : Type} (l : List α) (d : α) (k : ℕ) : α :=
  l.getD (l.length - k) d

/-- `int(self.tau / self.dt)` for the nonnegative quotients the filter
uses (Python `int` truncates toward zero, which is the floor here). -/
def taunOf (τ dt : ℚ) : ℕ := ⌊τ / dt⌋₊

/-- `err[:, np.newaxis] @ err[:, np.newaxis].T`: the outer product of two
vectors. -/
def outer {n : ℕ} (u v : Vec n) : Mat n := colVec u * (colVec v)ᵀ

/-- Squared Frobenius norm.  `np.linalg.norm` of a matrix is the Frobenius
norm, whose square root is irrational in general; comparisons against a
bound `b` are modelled square-free via `‖M‖ ≤ b ↔ 0 ≤ b ∧ ‖M‖² ≤ b²`. -/
def sqnorm {n m : ℕ} (A : Matrix (Fin n) (Fin m) ℚ) : ℚ :=
  ∑ i, ∑ j, A i j * A i j

/-- The magnitude gate `np.linalg.norm(eta_new) <= eta_bnd`: always true
for the infinite default bound, and for a finite bound `b` it is
`0 ≤ b ∧ ‖M‖² ≤ b²` (the square-free form of `‖M‖ ≤ b`). -/
def gateOk {n : ℕ} (bnd : Option ℚ) (M : Mat n) : Bool :=
  match bnd with
  | none => true
  | some b => decide (0 ≤ b) && decide (sqnorm M ≤ b * b)

/-- `K_t = P_t @ self.H @ np.linalg.inv(self.R)` (note: the source applies
`H`, not `H.T`, here). -/
def kalmanGain {n : ℕ} (cfg : Config n) (P : Mat n) : Mat n :=
  P * cfg.H * minv cfg.R

/-- `d_zz = (err_t@err_t.T - err_tau@err_tau.T) / self.tau
           - self.H@(p_t - p_tau)@self.H.T / self.tau`
with `err_t = err_hist[-1]`, `err_tau = err_hist[-tau_n]`,
`p_t = P_hist[-1]`, `p_tau = P_hist[-tau_n]`, `tau_n = int(tau / dt)`;
division by the scalar `tau` is multiplication by its inverse. -/
def dzzOf {n : ℕ} (cfg : Config n) (errHist : List (Vec n))
    (PHist : List (Mat n)) (τ : ℚ) : Mat n :=
  let tn := taunOf τ cfg.dt
  let err_t := histAt errHist 0 1
  let err_tau := histAt errHist 0 tn
  let p_t := histAt PHist 0 1
  let p_tau := histAt PHist 0 tn
  τ⁻¹ • (outer err_t err_t - outer err_tau err_tau) -
    τ⁻¹ • (cfg.H * (p_t - p_tau) * cfg.Hᵀ)

/-- `eta_new = self.gamma * H_inv @ d_zz @ H_inv.T @ P_inv / 2`. -/
def etaNewOf {n : ℕ} (cfg : Config n) (errHist : List (Vec n))
    (PHist : List (Mat n)) (τ : ℚ) (P : Mat n) : Mat n :=
  (2 : ℚ)⁻¹ • (cfg.gamma •
    (minv cfg.H * dzzOf cfg errHist PHist τ * (minv cfg.H)ᵀ * pInvOf cfg.eps P))

/-- The drift-correction derivative `d_eta`: zero outside the learning
phase (`t > self.tau` false, in particular always for the infinite
default `tau`), and inside it `(eta_new - eta_t) / self.dt` when the
magnitude gate accepts, zero when it rejects. -/
def dEtaOf {n : ℕ} (cfg : Config n) (t : ℚ) (errHist : List (Vec n))
    (PHist : List (Mat n)) (P η : Mat n) : Mat n :=
  match cfg.tau with
  | none => 0
  | some τ =>
    if τ < t then
      if gateOk cfg.eta_bnd (etaNewOf cfg errHist PHist τ P) then
        cfg.dt⁻¹ • (etaNewOf cfg errHist PHist τ P - η)
      else 0
    else 0

/-- `d_x = F_est @ x_t + K_t @ (z_t - self.H @ x_t)` with
`F_est = F_t - eta_t`. -/
def dxOf {n : ℕ} (cfg : Config n) (Ft : Mat n)
    (x : Matrix (Fin n) (Fin 1) ℚ) (P η : Mat n) (z : Vec n) :
    Matrix (Fin n) (Fin 1) ℚ :=
  (Ft - η) * x + kalmanGain cfg P * (colVec z - cfg.H * x)

/-- `d_P = F_est @ P_t + P_t @ F_est.T + self.Q - K_t @ self.R @ K_t.T`. -/
def dPOf {n : ℕ} (cfg : Config n) (Ft : Mat n) (P η : Mat n) : Mat n :=
  (Ft - η) * P + P * (Ft - η)ᵀ + cfg.Q -
    kalmanGain cfg P * cfg.R * (kalmanGain cfg P)ᵀ

/-- The coupled drift vector field `f(t, state, z_t, err_hist, F_t)` of
`LKF.__init__`: unpack the flat augmented state, form the Kalman gain,
the learning update and the state/covariance derivatives, and repack. -/
def fDrift {n : ℕ} (cfg : Config n) (t : ℚ) (state : FlatState n)
    (z : Vec n) (errHist : List (Vec n)) (PHist : List (Mat n))
    (Ft : Mat n) : FlatState n :=
  let v := load_vars state
  packState (dxOf cfg Ft v.1 v.2.1 v.2.2 z) (dPOf cfg Ft v.2.1 v.2.2)
    (dEtaOf cfg t errHist PHist v.2.1 v.2.2)

/-- Modelled from the spec: `lib/integrator.py` is not under `src/`.  The
Integrator "advances internal state from current time to `t_target` using
one or more internal sub-steps" with a zero diffusion field (pure ODE);
it is modelled as explicit-Euler sub-stepping: `k` sub-steps of size `h`,
each `y ← y + h · f(t, y)`. -/
def eulerSub {m : ℕ} (f : ℚ → (Fin m → ℚ) → (Fin m → ℚ)) (h : ℚ) :
    ℕ → ℚ → (Fin m → ℚ) → (Fin m → ℚ)
  | 0, _, y => y
  | k + 1, t, y => eulerSub f h k (t + h) (fun i => y i + h * f t y i)

/-- Modelled from the spec: the `(t, state)` pairs at which the Integrator
evaluates the drift field during one `integrate` call of `k` sub-steps. -/
def eulerVisited {m : ℕ} (f : ℚ → (Fin m → ℚ) → (Fin m → ℚ)) (h : ℚ) :
    ℕ → ℚ → (Fin m → ℚ) → List (ℚ × (Fin m → ℚ))
  | 0, _, _ => []
  | k + 1, t, y => (t, y) :: eulerVisited f h k (t + h) (fun i => y i + h * f t y i)

/-- Modelled from the spec: `Integrator.integrate(t_target)` advancing
from `(t0, y0)` to `t1` in `k` Euler sub-steps of size `(t1 - t0) / k`. -/
def integrate {m : ℕ} (f : ℚ → (Fin m → ℚ) → (Fin m → ℚ)) (k : ℕ)
    (t0 : ℚ) (y0 : Fin m → ℚ) (t1 : ℚ) : Fin m → ℚ :=
  eulerSub f ((t1 - t0) / (k : ℚ)) k t0 y0

/-- The mutable per-instance state of the filter: the integrator's clock
and flat augmented state, and the two append-only history buffers. -/
structure LKFState (n : ℕ) where
  t : ℚ
  y : FlatState n
  err_hist : List (Vec n)
  P_hist : List (Mat n)

/-- `LKF.__init__` state initialization: `x0[:, np.newaxis]`,
`P0 = np.eye(ndim)`, `eta0 = np.zeros(...)`, empty history buffers, and
`set_initial_value(iv, 0.)`. -/
def initState {n : ℕ} (x0 : Vec n) : LKFState n :=
  ⟨0, packState (colVec x0) (1 : Mat n) (0 : Mat n), [], []⟩

/-- `LKF.__call__(z_t)`: bind the per-step parameters, integrate one `dt`
tick (with `k` integrator sub-steps), unpack, append the new covariance
and innovation to the buffers, and return the squeezed state estimate
with the innovation `z_t - x_t @ self.H.T`. -/
def observe {n : ℕ} (cfg : Config n) (F : ℚ → Mat n) (k : ℕ)
    (s : LKFState n) (z : Vec n) : LKFState n × Vec n × Vec n :=
  let Ft := F s.t
  let y1 := integrate (fun t y => fDrift cfg t y z s.err_hist s.P_hist Ft)
    k s.t s.y (s.t + cfg.dt)
  let v := load_vars y1
  let x1 : Vec n := fun i => v.1 i ⟨0, Nat.one_pos⟩
  let err : Vec n := fun i => z i - Matrix.vecMul x1 cfg.Hᵀ i
  (⟨s.t + cfg.dt, y1, s.err_hist ++ [err], s.P_hist ++ [v.2.1]⟩, x1, err)

/-- Driving the filter through a sequence of observations, one tick each. -/
def runTicks {n : ℕ} (cfg : Config n) (F : ℚ → Mat n) (k : ℕ) :
    LKFState n → List (Vec n) → LKFState n
  | s, [] => s
  | s, z :: zs => runTicks cfg F k (observe cfg F k s z).1 zs

/-- The `eta` block of a flat augmented state. -/
def etaPart {n : ℕ} (y : FlatState n) : Mat n := (load_vars y).2.2

/-- The `(t, state)` pairs at which the drift field is evaluated during
one tick of `observe` (with `k` integrator sub-steps). -/
def tickVisited {n : ℕ} (cfg : Config n) (F : ℚ → Mat n) (k : ℕ)
    (s : LKFState n) (z : Vec n) : List (ℚ × FlatState n) :=
  eulerVisited (fun t y => fDrift cfg t y z s.err_hist s.P_hist (F s.t))
    ((s.t + cfg.dt - s.t) / (k : ℚ)) k s.t s.y

/-- The claim's empirical innovation second-moment rate, written from the
spec: `d_zz = (err_t·err_tᵗ − err_τ·err_τᵗ)/τ − H·(P_t − P_τ)·Hᵗ/τ`. -/
def dzzSpec {n : ℕ} (H : Mat n) (τ : ℚ) (errT errTau : Vec n)
    (Pt Ptau : Mat n) : Mat n :=
  τ⁻¹ • (outer errT errT - outer errTau errTau) -
    τ⁻¹ • (H * (Pt - Ptau) * Hᵀ)

/-- The claim's candidate drift correction, written from the spec:
`eta_new = (gamma/2) · H⁻¹ · d_zz · H⁻ᵗ · P_inv`. -/
def etaNewSpec {n : ℕ} (cfg : Config n) (τ : ℚ) (errT errTau : Vec n)
    (Pt Ptau P : Mat n) : Mat n :=
  (cfg.gamma / 2) • (minv cfg.H * dzzSpec cfg.H τ errT errTau Pt Ptau *
    (minv cfg.H)ᵀ * pInvOf cfg.eps P)

namespace NpShape

/-!
Shape-level semantics of the numpy operations executed by the
constructor and the first `observe` call, used to settle whether a
dimension mismatch in the configuration surfaces as an error.  A shape is
the list of array extents; every operation returns `none` exactly when
numpy would raise on shape grounds, and the successful shape otherwise.
The constructor of `LKF` stores `H`, `Q`, `R` without any check and
builds `iv` purely from `ndim = x0.shape[0]`, so shape errors can only
surface inside the first tick's drift evaluation, which is traced here
through the warm-up path (default `tau = ∞`).
-/

/-- A numpy ndarray shape (list of axis extents). -/
abbrev Shape := List ℕ

/-- Broadcasting of a single axis pair. -/
def bcAxis (a b : ℕ) : Option ℕ :=
  if a = b then some a
  else if a = 1 then some b
  else if b = 1 then some a
  else none

/-- Broadcasting of shapes given trailing-axis-first (reversed) lists:
the shorter shape is padded with leading ones. -/
def bcastRev : List ℕ → List ℕ → Option (List ℕ)
  | [], ys => some ys
  | xs, [] => some xs
  | x :: xs, y :: ys => do
    let h ← bcAxis x y
    let r ← bcastRev xs ys
    pure (h :: r)

/-- numpy broadcasting of two shapes, as applied by elementwise
`+` and `-`. -/
def broadcast (s1 s2 : Shape) : Option Shape :=
  (bcastRev s1.reverse s2.reverse).map List.reverse

/-- The `@` matmul shape rule for the 1-D and 2-D operands the filter
uses. -/
def matmulS : Shape → Shape → Option Shape
  | [a], [c, d] => if a = c then some [d] else none
  | [a, b], [c, d] => if b = c then some [a, d] else none
  | _, _ => none

/-- `np.linalg.inv`: requires a square 2-D operand. -/
def invS : Shape → Option Shape
  | [a, b] => if a = b then some [a, b] else none
  | _ => none

/-- `.T` of a 2-D array. -/
def transposeS : Shape → Option Shape
  | [a, b] => some [b, a]
  | _ => none

/-- `np.concatenate((·, ·, ·), axis=1)` of three 2-D arrays: equal row
counts, columns add. -/
def concat1S : Shape → Shape → Shape → Option Shape
  | [a, b], [c, d], [e, g] =>
    if a = c ∧ c = e then some [a, b + d + g] else none
  | _, _, _ => none

/-- `.ravel()`. -/
def ravelS (s : Shape) : Shape := [s.prod]

/-- `np.squeeze`: drop every axis of extent 1. -/
def squeezeS (s : Shape) : Shape := s.filter (fun a => a ≠ 1)

/-- `state.reshape(self.ode_shape)`: element counts must agree. -/
def reshapeS (s : Shape) (n : ℕ) : Option Shape :=
  if s.prod = n * (1 + 2 * n) then some [n, 1 + 2 * n] else none

/-- `K_t = P_t @ self.H @ np.linalg.inv(self.R)` at shape level, with
`P_t` of shape `(n, n)`. -/
def kShape (n : ℕ) (Hs Rs : Shape) : Option Shape := do
  let PH ← matmulS [n, n] Hs
  let Ri ← invS Rs
  matmulS PH Ri

/-- `d_x = F_est @ x_t + K_t @ (z_t - self.H @ x_t)` at shape level, with
`x_t` of shape `(n, 1)` and `z_t[:, np.newaxis]` of shape `(m, 1)`. -/
def dxShape (n m : ℕ) (Hs Fest K : Shape) : Option Shape := do
  let Hx ← matmulS Hs [n, 1]
  let innov ← broadcast [m, 1] Hx
  let Kin ← matmulS K innov
  let Fx ← matmulS Fest [n, 1]
  broadcast Fx Kin

/-- `d_P = F_est @ P_t + P_t @ F_est.T + self.Q - K_t @ self.R @ K_t.T`
at shape level, with `P_t` of shape `(n, n)`. -/
def dPShape (n : ℕ) (Qs Rs Fest K : Shape) : Option Shape := do
  let FP ← matmulS Fest [n, n]
  let FestT ← transposeS Fest
  let PF ← matmulS [n, n] FestT
  let s1 ← broadcast FP PF
  let s2 ← broadcast s1 Qs
  let KR ← matmulS K Rs
  let KT ← transposeS K
  let KRK ← matmulS KR KT
  broadcast s2 KRK

/-- Shape evaluation of one drift-field call `f(t, state, z_t, err_hist,
F_t)` on the warm-up path (`t ≤ tau`; the learning branch is skipped,
`d_eta = zeros((n, n))`), following the source line by line.  `n` is
`ndim = x0.shape[0]` for a 1-D `x0`, `m` the length of the 1-D
observation `z_t`; `F(t)` is the System Descriptor's `n×n` matrix, so
`F_est = F_t - eta_t` broadcasts `(n, n)` against `(n, n)`. -/
def fShape (n m : ℕ) (Hs Qs Rs state : Shape) : Option Shape := do
  let _ ← reshapeS state n
  let K ← kShape n Hs Rs
  let Fest ← broadcast [n, n] [n, n]
  let dx ← dxShape n m Hs Fest K
  let dP ← dPShape n Qs Rs Fest K
  let dstate ← concat1S dx dP [n, n]
  pure (ravelS dstate)

/-- Shape evaluation of the first `observe` call after construction:
one Euler sub-step of the integrator (modelled from the spec) applied to
the constructor's flat `iv`, then unpacking and the innovation
computation `z_t - x_t @ self.H.T` on the squeezed estimate.  Returns
the shapes of the returned estimate and innovation, or `none` when some
numpy operation raises. -/
def firstCallShape (n m : ℕ) (Hs Qs Rs : Shape) : Option (Shape × Shape) := do
  let y0 := ravelS [n, 1 + 2 * n]
  let dy ← fShape n m Hs Qs Rs y0
  let y1 ← broadcast y0 dy
  let _ ← reshapeS y1 n
  let xs : Shape := [n, 1]
  let Ht ← transposeS Hs
  let xH ← matmulS (squeezeS xs) Ht
  let errS ← broadcast [m] xH
  pure (squeezeS xs, errS)

end NpShape

theorem reshape_ravel {n m : ℕ} (A : Matrix (Fin n) (Fin m) ℚ) :
    reshape (ravel A) = A := by
  funext i j
  have hm : 0 < m := lt_of_le_of_lt (Nat.zero_le _) j.isLt
  have hdiv : ((i : ℕ) * m + (j : ℕ)) / m = (i : ℕ) := by
    rw [Nat.mul_comm (i : ℕ) m, Nat.mul_add_div hm, Nat.div_eq_of_lt j.isLt]
    omega
  have hmod : ((i : ℕ) * m + (j : ℕ)) % m = (j : ℕ) := by
    rw [Nat.mul_comm (i : ℕ) m, Nat.mul_add_mod, Nat.mod_eq_of_lt j.isLt]
  show A ⟨_, _⟩ ⟨_, _⟩ = A i j
  congr 1
  · exact Fin.ext hdiv
  · exact Fin.ext hmod

theorem load_vars_packState {n : ℕ} (x : Matrix (Fin n) (Fin 1) ℚ)
    (P η : Mat n) : load_vars (packState x P η) = (x, P, η) := by
  unfold load_vars packState
  rw [reshape_ravel]
  refine Prod.ext ?_ (Prod.ext ?_ ?_)
  · funext i j
    have hj : j = (⟨0, by omega⟩ : Fin 1) := Subsingleton.elim _ _
    simp only [packMat]
    rw [dif_pos (by omega : (0 : ℕ) < 1)]
    rw [hj]
  · funext i j
    have h1 : ¬ (1 + (j : ℕ) < 1) := by omega
    have h2 : 1 + (j : ℕ) < 1 + n := by have := j.isLt; omega
    simp only [packMat]
    rw [dif_neg h1, dif_pos h2]
    exact congrArg (P i) (Fin.ext (show 1 + (j : ℕ) - 1 = (j : ℕ) by omega))
  · funext i j
    have h1 : ¬ (1 + n + (j : ℕ) < 1) := by omega
    have h2 : ¬ (1 + n + (j : ℕ) < 1 + n) := by omega
    simp only [packMat]
    rw [dif_neg h1, dif_neg h2]
    exact congrArg (η i) (Fin.ext (show 1 + n + (j : ℕ) - 1 - n = (j : ℕ) by omega))

theorem minv_mul_cancel {n : ℕ} {A : Mat n} (h : A.det ≠ 0) :
    A * minv A = 1 := by
  unfold minv
  rw [Matrix.mul_smul, Matrix.mul_adjugate, smul_smul, inv_mul_cancel₀ h,
    one_smul]

theorem ridge_det_ne_zero {n : ℕ} (P : Mat n) {ε : ℚ} (hε : 0 < ε) :
    (Pᵀ * P + ε • (1 : Mat n)).det ≠ 0 := by
  intro hdet
  obtain ⟨v, hv, hmv⟩ := (Matrix.exists_mulVec_eq_zero_iff).mpr hdet
  have hquad : Matrix.dotProduct v ((Pᵀ * P + ε • (1 : Mat n)) *ᵥ v) = 0 := by
    rw [hmv, Matrix.dotProduct_zero]
  rw [Matrix.add_mulVec, Matrix.dotProduct_add, Matrix.smul_mulVec_assoc,
    Matrix.one_mulVec, ← Matrix.mulVec_mulVec, Matrix.dotProduct_mulVec,
    Matrix.vecMul_transpose] at hquad
  have hPv : (0 : ℚ) ≤ Matrix.dotProduct (P *ᵥ v) (P *ᵥ v) :=
    Finset.sum_nonneg fun i _ => mul_self_nonneg _
  have hvv : (0 : ℚ) < Matrix.dotProduct v v := by
    rcases lt_or_eq_of_le (Finset.sum_nonneg
      fun i (_ : i ∈ Finset.univ) => mul_self_nonneg (v i)) with h | h
    · exact h
    · exact absurd (Matrix.dotProduct_self_eq_zero.mp h.symm) hv
  have hsmul : Matrix.dotProduct v (ε • v) = ε * Matrix.dotProduct v v := by
    simp [Matrix.dotProduct, Finset.mul_sum, mul_comm, mul_left_comm]
  rw [hsmul] at hquad
  nlinarith

/-- The computed ridge inverse really solves `(Pᵀ·P + ε·I) · X = Pᵀ`. -/
theorem ridge_solves {n : ℕ} (P : Mat n) {ε : ℚ} (hε : 0 < ε) :
    (Pᵀ * P + ε • (1 : Mat n)) * pInvOf ε P = Pᵀ := by
  unfold pInvOf
  rw [← Matrix.mul_assoc, minv_mul_cancel (ridge_det_ne_zero P hε),
    Matrix.one_mul]

theorem minv_mul_cancel_left {n : ℕ} {A : Mat n} (h : A.det ≠ 0) :
    minv A * A = 1 := by
  unfold minv
  rw [Matrix.smul_mul, Matrix.adjugate_mul, smul_smul, inv_mul_cancel₀ h,
    one_smul]

theorem ridge_solution_unique {n : ℕ} (P : Mat n) {ε : ℚ} (hε : 0 < ε)
    (X : Mat n) (hX : (Pᵀ * P + ε • (1 : Mat n)) * X = Pᵀ) :
    X = pInvOf ε P := by
  have hinv := minv_mul_cancel_left (ridge_det_ne_zero P hε)
  calc X = 1 * X := (Matrix.one_mul X).symm
    _ = minv (Pᵀ * P + ε • (1 : Mat n)) * ((Pᵀ * P + ε • (1 : Mat n)) * X) := by
        rw [← Matrix.mul_assoc, hinv]
    _ = minv (Pᵀ * P + ε • (1 : Mat n)) * Pᵀ := by rw [hX]
    _ = pInvOf ε P := rfl

theorem etaPart_packState {n : ℕ} (x : Matrix (Fin n) (Fin 1) ℚ)
    (P η : Mat n) : etaPart (packState x P η) = η := by
  unfold etaPart
  rw [load_vars_packState]

theorem etaPart_fDrift {n : ℕ} (cfg : Config n) (t : ℚ) (y : FlatState n)
    (z : Vec n) (errHist : List (Vec n)) (PHist : List (Mat n)) (Ft : Mat n) :
    etaPart (fDrift cfg t y z errHist PHist Ft) =
      dEtaOf cfg t errHist PHist (load_vars y).2.1 (load_vars y).2.2 := by
  unfold fDrift
  exact etaPart_packState _ _ _

theorem etaPart_step {n : ℕ} (y w : FlatState n) (h : ℚ) :
    etaPart (fun i => y i + h * w i) = etaPart y + h • etaPart w := by
  funext i j
  rfl

theorem etaPart_eulerSub {n : ℕ}
    (f : ℚ → FlatState n → FlatState n) (h : ℚ) (k : ℕ) (t : ℚ)
    (y : FlatState n)
    (hf : ∀ p ∈ eulerVisited f h k t y, etaPart (f p.1 p.2) = 0) :
    etaPart (eulerSub f h k t y) = etaPart y := by
  induction k generalizing t y with
  | zero => rfl
  | succ k ih =>
    have hhead : etaPart (f t y) = 0 :=
      hf (t, y) (by simp [eulerVisited])
    have htail : ∀ p ∈ eulerVisited f h k (t + h)
        (fun i => y i + h * f t y i), etaPart (f p.1 p.2) = 0 := by
      intro p hp
      exact hf p (by simp [eulerVisited, hp])
    calc etaPart (eulerSub f h (k + 1) t y)
        = etaPart (eulerSub f h k (t + h) (fun i => y i + h * f t y i)) := rfl
      _ = etaPart (fun i => y i + h * f t y i) := ih _ _ htail
      _ = etaPart y + h • etaPart (f t y) := etaPart_step _ _ _
      _ = etaPart y := by rw [hhead, smul_zero, add_zero]

theorem dEtaOf_tau_none {n : ℕ} {cfg : Config n} (hτ : cfg.tau = none)
    (t : ℚ) (errHist : List (Vec n)) (PHist : List (Mat n)) (P η : Mat n) :
    dEtaOf cfg t errHist PHist P η = 0 := by
  unfold dEtaOf
  rw [hτ]

theorem etaPart_observe {n : ℕ} (cfg : Config n) (F : ℚ → Mat n) (k : ℕ)
    (s : LKFState n) (z : Vec n)
    (hf : ∀ p ∈ eulerVisited
      (fun t y => fDrift cfg t y z s.err_hist s.P_hist (F s.t))
      ((s.t + cfg.dt - s.t) / (k : ℚ)) k s.t s.y,
      dEtaOf cfg p.1 s.err_hist s.P_hist (load_vars p.2).2.1
        (load_vars p.2).2.2 = 0) :
    etaPart (observe cfg F k s z).1.y = etaPart s.y := by
  show etaPart (integrate _ k s.t s.y (s.t + cfg.dt)) = etaPart s.y
  unfold integrate
  refine etaPart_eulerSub _ _ _ _ _ ?_
  intro p hp
  rw [etaPart_fDrift]
  exact hf p hp

theorem etaPart_observe_tau_none {n : ℕ} {cfg : Config n}
    (hτ : cfg.tau = none) (F : ℚ → Mat n) (k : ℕ) (s : LKFState n)
    (z : Vec n) : etaPart (observe cfg F k s z).1.y = etaPart s.y :=
  etaPart_observe cfg F k s z fun _ _ => dEtaOf_tau_none hτ _ _ _ _ _

theorem etaPart_runTicks_tau_none {n : ℕ} {cfg : Config n}
    (hτ : cfg.tau = none) (F : ℚ → Mat n) (k : ℕ) (s : LKFState n)
    (zs : List (Vec n)) :
    etaPart (runTicks cfg F k s zs).y = etaPart s.y := by
  induction zs generalizing s with
  | nil => rfl
  | cons z zs ih =>
    calc etaPart (runTicks cfg F k (observe cfg F k s z).1 zs).y
        = etaPart (observe cfg F k s z).1.y := ih _
      _ = etaPart s.y := etaPart_observe_tau_none hτ F k s z

/-- Claim C4: for every `x` of shape `n×1`, `P` of shape `n×n` and `eta`
of shape `n×n`, unpacking (via `load_vars`) the flat augmented vector of
length `n·(1+2n)` obtained by packing `(x, P, eta)` reproduces
`(x, P, eta)` exactly, entry by entry. -/
theorem claim_C4 {n : ℕ} (x : Matrix (Fin n) (Fin 1) ℚ) (P η : Mat n) :
    load_vars (packState x P η) = (x, P, η) :=
  load_vars_packState x P η

/-- Claim C10: immediately after construction with initial state `x0` of
dimension `n`, and before any observation, the covariance estimate is the
`n×n` identity, the drift correction is the `n×n` zero matrix, and the
state estimate is `x0`. -/
theorem claim_C10 {n : ℕ} (x0 : Vec n) :
    load_vars (initState x0).y = (colVec x0, (1 : Mat n), (0 : Mat n)) :=
  load_vars_packState (colVec x0) 1 0

/-- Claim C5: for every filter constructed with `tau = ∞` and every
sequence of observations of any length, the drift correction `eta`
remains the all-zero `n×n` matrix after every tick (for every choice of
integrator sub-step count `k`). -/
theorem claim_C5 {n : ℕ} (cfg : Config n) (F : ℚ → Mat n) (k : ℕ)
    (x0 : Vec n) (zs : List (Vec n)) (hτ : cfg.tau = none) :
    etaPart (runTicks cfg F k (initState x0) zs).y = 0 := by
  rw [etaPart_runTicks_tau_none hτ]
  exact etaPart_packState _ _ _

/-- Witness for claim C5 at a concrete one-dimensional configuration with
a single observation. -/
theorem claim_C5_witness :
    etaPart (runTicks (⟨1, 1, 1, 1, none, none, 1, 1⟩ : Config 1)
      (fun _ => 1) 1 (initState fun _ => 3) [fun _ => 5]).y = 0 :=
  claim_C5 ⟨1, 1, 1, 1, none, none, 1, 1⟩ (fun _ => 1) 1 (fun _ => 3)
    [fun _ => 5] rfl

/-- Claim C3: for any tick in which every candidate `eta_new` computed
during that tick has norm greater than `eta_bnd` (the magnitude gate
rejects at every learning-phase drift evaluation of the tick), the
drift-correction derivative contributed by those evaluations is zero and
the post-tick `eta` equals the pre-tick `eta` exactly. -/
theorem claim_C3 {n : ℕ} (cfg : Config n) (F : ℚ → Mat n) (k : ℕ)
    (s : LKFState n) (z : Vec n)
    (hrej : ∀ p ∈ tickVisited cfg F k s z, ∀ τ, cfg.tau = some τ →
      τ < p.1 → gateOk cfg.eta_bnd
        (etaNewOf cfg s.err_hist s.P_hist τ (load_vars p.2).2.1) = false) :
    (∀ p ∈ tickVisited cfg F k s z,
      dEtaOf cfg p.1 s.err_hist s.P_hist (load_vars p.2).2.1
        (load_vars p.2).2.2 = 0) ∧
    etaPart (observe cfg F k s z).1.y = etaPart s.y := by
  have hzero : ∀ p ∈ tickVisited cfg F k s z,
      dEtaOf cfg p.1 s.err_hist s.P_hist (load_vars p.2).2.1
        (load_vars p.2).2.2 = 0 := by
    intro p hp
    cases htau : cfg.tau with
    | none => simp [dEtaOf, htau]
    | some τ =>
      by_cases hlt : τ < p.1
      · simp [dEtaOf, htau, hlt, hrej p hp τ htau hlt]
      · simp [dEtaOf, htau, hlt]
  exact ⟨hzero, etaPart_observe cfg F k s z hzero⟩

/-- Witness for claim C3: a concrete one-dimensional learning-phase tick
(`t = 2 > tau = 1`, non-empty history) whose bound `eta_bnd = -1` rejects
every candidate, leaving `eta` unchanged. -/
theorem claim_C3_witness :
    (∀ p ∈ tickVisited (⟨1, 1, 1, 1, some 1, some (-1), 1, 1⟩ : Config 1)
        (fun _ => 1) 1
        ⟨2, packState (colVec fun _ => 1) 1 0, [fun _ => 1], [1]⟩
        (fun _ => 0),
      dEtaOf (⟨1, 1, 1, 1, some 1, some (-1), 1, 1⟩ : Config 1) p.1
        [fun _ => 1] [1] (load_vars p.2).2.1 (load_vars p.2).2.2 = 0) ∧
    etaPart (observe (⟨1, 1, 1, 1, some 1, some (-1), 1, 1⟩ : Config 1)
        (fun _ => 1) 1
        ⟨2, packState (colVec fun _ => 1) 1 0, [fun _ => 1], [1]⟩
        (fun _ => 0)).1.y =
      etaPart (packState (colVec fun (_ : Fin 1) => (1 : ℚ)) 1 0) :=
  claim_C3 ⟨1, 1, 1, 1, some 1, some (-1), 1, 1⟩ (fun _ => 1) 1
    ⟨2, packState (colVec fun _ => 1) 1 0, [fun _ => 1], [1]⟩ (fun _ => 0)
    (by
      intro p hp τ hτ hlt
      have h1 : (1 : ℚ) = τ := Option.some.inj hτ
      subst h1
      rfl)

theorem observe_err_hist {n : ℕ} (cfg : Config n) (F : ℚ → Mat n) (k : ℕ)
    (s : LKFState n) (z : Vec n) :
    (observe cfg F k s z).1.err_hist = s.err_hist ++ [(observe cfg F k s z).2.2] :=
  rfl

theorem observe_P_hist {n : ℕ} (cfg : Config n) (F : ℚ → Mat n) (k : ℕ)
    (s : LKFState n) (z : Vec n) :
    (observe cfg F k s z).1.P_hist =
      s.P_hist ++ [(load_vars (observe cfg F k s z).1.y).2.1] :=
  rfl

theorem runTicks_hist_length {n : ℕ} (cfg : Config n) (F : ℚ → Mat n)
    (k : ℕ) (zs : List (Vec n)) (s : LKFState n) :
    (runTicks cfg F k s zs).err_hist.length =
      s.err_hist.length + zs.length ∧
    (runTicks cfg F k s zs).P_hist.length =
      s.P_hist.length + zs.length := by
  induction zs generalizing s with
  | nil => exact ⟨rfl, rfl⟩
  | cons z zs ih =>
    obtain ⟨ih1, ih2⟩ := ih (observe cfg F k s z).1
    constructor
    · rw [show runTicks cfg F k s (z :: zs) =
        runTicks cfg F k (observe cfg F k s z).1 zs from rfl, ih1,
        observe_err_hist]
      simp
      omega
    · rw [show runTicks cfg F k s (z :: zs) =
        runTicks cfg F k (observe cfg F k s z).1 zs from rfl, ih2,
        observe_P_hist]
      simp
      omega

/-- Claim C7: for every observation `z`, the per-tick operation returns
the updated (post-integration) state estimate together with the
innovation `z − H·x` computed from that post-update estimate `x`.
(The defensive `.copy()` of the returned array is an aliasing concern
with no counterpart in this pure embedding.) -/
theorem claim_C7 {n : ℕ} (cfg : Config n) (F : ℚ → Mat n) (k : ℕ)
    (s : LKFState n) (z : Vec n) :
    (observe cfg F k s z).2.1 =
      (fun i => (load_vars (observe cfg F k s z).1.y).1 i ⟨0, Nat.one_pos⟩) ∧
    (observe cfg F k s z).2.2 = z - cfg.H *ᵥ (observe cfg F k s z).2.1 := by
  refine ⟨rfl, ?_⟩
  funext i
  show z i - Matrix.vecMul _ cfg.Hᵀ i = (z - cfg.H *ᵥ _) i
  rw [Matrix.vecMul_transpose]
  rfl

/-- Claim C8: after `k` calls to the per-tick observe operation the
innovation and covariance history buffers each contain exactly `k`
entries, and each call appends exactly one entry to the end of each
buffer (tick order) and never removes any. -/
theorem claim_C8 {n : ℕ} (cfg : Config n) (F : ℚ → Mat n) (k : ℕ)
    (x0 : Vec n) (zs : List (Vec n)) :
    (runTicks cfg F k (initState x0) zs).err_hist.length = zs.length ∧
    (runTicks cfg F k (initState x0) zs).P_hist.length = zs.length ∧
    ∀ (s : LKFState n) (z : Vec n),
      (observe cfg F k s z).1.err_hist =
        s.err_hist ++ [(observe cfg F k s z).2.2] ∧
      (observe cfg F k s z).1.P_hist =
        s.P_hist ++ [(load_vars (observe cfg F k s z).1.y).2.1] := by
  obtain ⟨h1, h2⟩ := runTicks_hist_length cfg F k zs (initState x0)
  exact ⟨by simpa [initState] using h1, by simpa [initState] using h2,
    fun s z => ⟨observe_err_hist cfg F k s z, observe_P_hist cfg F k s z⟩⟩

theorem minv_one {n : ℕ} : minv (1 : Mat n) = 1 := by
  unfold minv
  simp

/-- Claim C1: the claim (and the spec) state that the Kalman gain is
`K = P · Hᵀ · R⁻¹`; the code computes `K_t = P_t @ self.H @ inv(self.R)`
with no transpose on `H`.  At `P = I`, `R = I` and the non-symmetric
`H = [[1, 1], [0, 1]]` the computed gain is `H`, which differs from the
claimed `P · Hᵀ · R⁻¹ = Hᵀ`. -/
theorem claim_C1 :
    kalmanGain (⟨!![1, 1; 0, 1], 1, 1, 1, none, none, 1, 1⟩ : Config 2)
        (1 : Mat 2) =
      (⟨!![1, 1; 0, 1], 1, 1, 1, none, none, 1, 1⟩ : Config 2).H *
        minv (⟨!![1, 1; 0, 1], 1, 1, 1, none, none, 1, 1⟩ : Config 2).R ∧
    kalmanGain (⟨!![1, 1; 0, 1], 1, 1, 1, none, none, 1, 1⟩ : Config 2)
        (1 : Mat 2) ≠
      (1 : Mat 2) *
        (⟨!![1, 1; 0, 1], 1, 1, 1, none, none, 1, 1⟩ : Config 2).Hᵀ *
        minv (⟨!![1, 1; 0, 1], 1, 1, 1, none, none, 1, 1⟩ : Config 2).R := by
  constructor
  · unfold kalmanGain
    rw [Matrix.one_mul]
  · unfold kalmanGain
    show (1 : Mat 2) * !![1, 1; 0, 1] * minv 1 ≠ 1 * !![1, 1; 0, 1]ᵀ * minv 1
    rw [minv_one, Matrix.mul_one, Matrix.mul_one, Matrix.one_mul,
      Matrix.one_mul]
    decide

theorem etaNewOf_eq_spec {n : ℕ} (cfg : Config n) (errs : List (Vec n))
    (Ps : List (Mat n)) (τ : ℚ) (P : Mat n) :
    etaNewOf cfg errs Ps τ P =
      etaNewSpec cfg τ (histAt errs 0 1) (histAt errs 0 (taunOf τ cfg.dt))
        (histAt Ps 0 1) (histAt Ps 0 (taunOf τ cfg.dt)) P := by
  unfold etaNewOf etaNewSpec dzzOf dzzSpec
  rw [smul_smul]
  congr 1
  rw [div_eq_mul_inv, mul_comm]

/-- Claim C2: in every learning-phase (`t > tau`) drift-field
evaluation, the candidate drift correction equals
`eta_new = (gamma/2)·H⁻¹·d_zz·H⁻ᵗ·P_inv` with
`d_zz = (err_t·err_tᵗ − err_τ·err_τᵗ)/τ − H·(P_t − P_τ)·Hᵗ/τ` over the
lookback entries, `P_inv` is the unique solution of
`(Pᵀ·P + eps·I)·P_inv = Pᵀ` for the current covariance `P`, and (when
the gate accepts) the contributed eta-derivative is
`(eta_new − eta)/dt`. -/
theorem claim_C2 {n : ℕ} (cfg : Config n) (t : ℚ) (y : FlatState n)
    (z : Vec n) (errs : List (Vec n)) (Ps : List (Mat n)) (Ft : Mat n)
    (τ : ℚ) (hτ : cfg.tau = some τ) (hlt : τ < t) (hε : 0 < cfg.eps) :
    etaNewOf cfg errs Ps τ (load_vars y).2.1 =
      etaNewSpec cfg τ (histAt errs 0 1)
        (histAt errs 0 (taunOf τ cfg.dt)) (histAt Ps 0 1)
        (histAt Ps 0 (taunOf τ cfg.dt)) (load_vars y).2.1 ∧
    (((load_vars y).2.1)ᵀ * (load_vars y).2.1 + cfg.eps • (1 : Mat n)) *
      pInvOf cfg.eps (load_vars y).2.1 = ((load_vars y).2.1)ᵀ ∧
    (∀ X : Mat n,
      (((load_vars y).2.1)ᵀ * (load_vars y).2.1 + cfg.eps • (1 : Mat n)) *
        X = ((load_vars y).2.1)ᵀ → X = pInvOf cfg.eps (load_vars y).2.1) ∧
    (gateOk cfg.eta_bnd (etaNewOf cfg errs Ps τ (load_vars y).2.1) = true →
      etaPart (fDrift cfg t y z errs Ps Ft) =
        cfg.dt⁻¹ • (etaNewOf cfg errs Ps τ (load_vars y).2.1 -
          (load_vars y).2.2)) := by
  refine ⟨etaNewOf_eq_spec cfg errs Ps τ _, ridge_solves _ hε,
    fun X hX => ridge_solution_unique _ hε X hX, ?_⟩
  intro hgate
  rw [etaPart_fDrift]
  simp [dEtaOf, hτ, hlt, hgate]

/-- Witness for claim C2 at a concrete one-dimensional learning-phase
evaluation (`t = 2 > tau = 1`, infinite `eta_bnd` so the gate accepts,
`eps = 1`). -/
theorem claim_C2_witness :
    etaNewOf (⟨1, 1, 1, 1, some 1, none, 1, 1⟩ : Config 1) [fun _ => 1]
        [1] 1 (load_vars (packState (colVec fun _ => 2) 1 0)).2.1 =
      etaNewSpec (⟨1, 1, 1, 1, some 1, none, 1, 1⟩ : Config 1) 1
        (histAt [fun _ => 1] 0 1)
        (histAt [fun _ => 1] 0
          (taunOf 1 (⟨1, 1, 1, 1, some 1, none, 1, 1⟩ : Config 1).dt))
        (histAt [(1 : Mat 1)] 0 1)
        (histAt [(1 : Mat 1)] 0
          (taunOf 1 (⟨1, 1, 1, 1, some 1, none, 1, 1⟩ : Config 1).dt))
        (load_vars (packState (colVec fun _ => 2) 1 0)).2.1 ∧
    (((load_vars (packState (colVec fun (_ : Fin 1) => (2 : ℚ)) 1 0)).2.1)ᵀ *
        (load_vars (packState (colVec fun _ => 2) 1 0)).2.1 +
        (⟨1, 1, 1, 1, some 1, none, 1, 1⟩ : Config 1).eps • (1 : Mat 1)) *
        pInvOf (⟨1, 1, 1, 1, some 1, none, 1, 1⟩ : Config 1).eps
          (load_vars (packState (colVec fun _ => 2) 1 0)).2.1 =
      ((load_vars (packState (colVec fun (_ : Fin 1) => (2 : ℚ)) 1 0)).2.1)ᵀ ∧
    (∀ X : Mat 1,
      (((load_vars (packState (colVec fun (_ : Fin 1) => (2 : ℚ)) 1 0)).2.1)ᵀ *
          (load_vars (packState (colVec fun _ => 2) 1 0)).2.1 +
          (⟨1, 1, 1, 1, some 1, none, 1, 1⟩ : Config 1).eps • (1 : Mat 1)) *
          X =
        ((load_vars (packState (colVec fun (_ : Fin 1) => (2 : ℚ)) 1 0)).2.1)ᵀ →
      X = pInvOf (⟨1, 1, 1, 1, some 1, none, 1, 1⟩ : Config 1).eps
        (load_vars (packState (colVec fun _ => 2) 1 0)).2.1) ∧
    (gateOk (⟨1, 1, 1, 1, some 1, none, 1, 1⟩ : Config 1).eta_bnd
        (etaNewOf (⟨1, 1, 1, 1, some 1, none, 1, 1⟩ : Config 1)
          [fun _ => 1] [1] 1
          (load_vars (packState (colVec fun _ => 2) 1 0)).2.1) = true →
      etaPart (fDrift (⟨1, 1, 1, 1, some 1, none, 1, 1⟩ : Config 1) 2
          (packState (colVec fun _ => 2) 1 0) (fun _ => 0) [fun _ => 1]
          [1] 1) =
        ((⟨1, 1, 1, 1, some 1, none, 1, 1⟩ : Config 1).dt)⁻¹ •
          (etaNewOf (⟨1, 1, 1, 1, some 1, none, 1, 1⟩ : Config 1)
            [fun _ => 1] [1] 1
            (load_vars (packState (colVec fun _ => 2) 1 0)).2.1 -
            (load_vars (packState (colVec fun _ => 2) 1 0)).2.2)) :=
  claim_C2 ⟨1, 1, 1, 1, some 1, none, 1, 1⟩ 2
    (packState (colVec fun _ => 2) 1 0) (fun _ => 0) [fun _ => 1] [1] 1 1
    rfl (by norm_num) (by norm_num)

theorem histAt_reverse {α : Type} (l : List α) (d : α) (k : ℕ)
    (h1 : 1 ≤ k) (h2 : k ≤ l.length) :
    histAt l d k = l.reverse.getD (k - 1) d := by
  unfold histAt
  have hk : l.length - k < l.length := by omega
  have hk2 : k - 1 < l.reverse.length := by
    rw [List.length_reverse]
    omega
  rw [List.getD_eq_getElem l d hk, List.getD_eq_getElem _ d hk2,
    List.getElem_reverse]
  congr 1
  omega

/-- Claim C6 (amended): in the learning-phase drift evaluation, `err_t`
and `P_t` are the most recent entries of the history buffers, and
`err_tau` and `P_tau` are the entries recorded exactly `tau_n − 1` ticks
before the most recent entry, where `tau_n = int(tau/dt)` (the code reads
Python index `-tau_n`, not the entry `tau_n` ticks back). -/
theorem claim_C6 {n : ℕ} (errs : List (Vec n)) (Ps : List (Mat n))
    (dv : Vec n) (dM : Mat n) (tn : ℕ) (h1 : 1 ≤ tn)
    (h2 : tn ≤ errs.length) (h3 : tn ≤ Ps.length) :
    histAt errs dv 1 = errs.reverse.getD 0 dv ∧
    histAt errs dv tn = errs.reverse.getD (tn - 1) dv ∧
    histAt Ps dM 1 = Ps.reverse.getD 0 dM ∧
    histAt Ps dM tn = Ps.reverse.getD (tn - 1) dM :=
  ⟨histAt_reverse errs dv 1 le_rfl (le_trans h1 h2),
   histAt_reverse errs dv tn h1 h2,
   histAt_reverse Ps dM 1 le_rfl (le_trans h1 h3),
   histAt_reverse Ps dM tn h1 h3⟩

/-- Witness for claim C6 on concrete three-entry buffers with
`tau_n = 2`. -/
theorem claim_C6_witness :
    histAt [fun _ => (10 : ℚ), fun _ => 20, fun _ => 30]
        (fun (_ : Fin 1) => 0) 1 =
      [fun _ => (10 : ℚ), fun _ => 20, fun _ => 30].reverse.getD 0
        (fun (_ : Fin 1) => 0) ∧
    histAt [fun _ => (10 : ℚ), fun _ => 20, fun _ => 30]
        (fun (_ : Fin 1) => 0) 2 =
      [fun _ => (10 : ℚ), fun _ => 20, fun _ => 30].reverse.getD (2 - 1)
        (fun (_ : Fin 1) => 0) ∧
    histAt [(1 : Mat 1), 2, 3] 0 1 =
      [(1 : Mat 1), 2, 3].reverse.getD 0 0 ∧
    histAt [(1 : Mat 1), 2, 3] 0 2 =
      [(1 : Mat 1), 2, 3].reverse.getD (2 - 1) 0 :=
  claim_C6 [fun _ => (10 : ℚ), fun _ => 20, fun _ => 30] [1, 2, 3]
    (fun _ => 0) 0 2 (by decide) (by decide) (by decide)

/-- Claim C6 counterexample: with buffer `[10, 20, 30]` and `tau_n = 2`,
the code's `err_tau` (`hist[-2]`) is `20`, the entry one tick before the
most recent, while the entry recorded exactly `tau_n = 2` ticks before
the most recent is `10`. -/
theorem claim_C6_cex :
    histAt [(10 : ℚ), 20, 30] 0 2 = 20 ∧
    ([(10 : ℚ), 20, 30] : List ℚ).reverse.getD 2 0 = 10 ∧
    histAt [(10 : ℚ), 20, 30] 0 2 ≠
      ([(10 : ℚ), 20, 30] : List ℚ).reverse.getD 2 0 := by
  decide

namespace NpShape

theorem kShape_none {n a b : ℕ} (ha : a ≠ n) (Rs : Shape) :
    kShape n [a, b] Rs = none := by
  simp [kShape, matmulS, Ne.symm ha]

theorem dxShape_none {n m a b : ℕ} (hb : b ≠ n) (Fest K : Shape) :
    dxShape n m [a, b] Fest K = none := by
  simp [dxShape, matmulS, hb]

theorem broadcast_pair (x y : ℕ) : broadcast [x, y] [x, y] = some [x, y] := by
  simp [broadcast, bcastRev, bcAxis]

theorem fShape_H_mismatch {n m a b : ℕ} (h : ¬(a = n ∧ b = n))
    (Qs Rs state : Shape) : fShape n m [a, b] Qs Rs state = none := by
  unfold fShape
  cases hre : reshapeS state n with
  | none => rfl
  | some M =>
    by_cases ha : a = n
    · have hb : b ≠ n := fun hb => h ⟨ha, hb⟩
      cases hk : kShape n [a, b] Rs with
      | none => simp
      | some K => simp [broadcast_pair, dxShape_none hb]
    · simp [kShape_none ha]

/-- Claim C9 (amended): a configuration whose `H` is not `n×n` (with `n`
the dimension of `x0`) makes the first call to observe fail with an
error, for every `Q`, `R` and observation length; dimension mismatches
that numpy broadcasting absorbs, such as a `1×1` `Q`, instead complete
silently (see the counterexample). -/
theorem claim_C9 (n m a b : ℕ) (Qs Rs : Shape) (h : ¬(a = n ∧ b = n)) :
    firstCallShape n m [a, b] Qs Rs = none := by
  unfold firstCallShape
  simp [fShape_H_mismatch h]

/-- Witness for claim C9: a `1×1` `H` against a 2-dimensional `x0` fails
the first call. -/
theorem claim_C9_witness :
    firstCallShape 2 2 [1, 1] [2, 2] [2, 2] = none :=
  claim_C9 2 2 1 1 [2, 2] [2, 2] (by decide)

/-- Claim C9 counterexample: with `n = 2`, consistent `H`, `R` and
observation but a `1×1` (hence inconsistent) `Q`, both the constructor
and the first call to observe complete silently — numpy broadcasting
absorbs the mismatched `Q` — contradicting the claim that every
dimension inconsistency fails fast. -/
theorem claim_C9_cex :
    firstCallShape 2 2 [2, 2] [1, 1] [2, 2] = some ([2], [2]) ∧
    ([1, 1] : Shape) ≠ [2, 2] := by
  constructor
  · rfl
  · decide

end NpShape

end LKF
